import Mathlib

/-!
Verification development for the vcpkg-rs build-time dependency helper.

The definitions below are a shallow embedding of the Rust sources:

* `src/pc_file/pc_file.rs` and `src/pc_file/pc_files.rs` — metadata (.pc) file
  records and the link-order refinement pass `PcFiles::fix_ordering`;
* `src/lib.rs` — `remove_item`, status-database loading (`load_port_file`,
  `load_ports`), and the target table `msvc_target`;
* `src/config.rs` — the probe entry point `Config::find_package` (its check
  sequence), the port-graph scan loop, and `Config::emit_libs`;
* `src/target_triplet.rs` — the `From<S> for TargetTriplet` conversion.

Rust `HashMap`/`BTreeMap` values are embedded as association lists; for
`HashMap` (whose iteration order the source leaves unspecified) the list order
stands for one fixed arbitrary iteration order, and for `BTreeMap` iteration
the entries are explicitly sorted by key before they are walked.  Filesystem
reads are passed in as explicit data (file contents, an existence predicate, a
manifest oracle).  All definitions are executable.
-/

namespace Vcpkg

/-! ## Metadata records (`src/pc_file/pc_file.rs`) -/

/-- Parsed knowledge from a .pc file (`struct PcFile`). -/
structure PcFile where
  id : String
  libs : List String
  deps : List String
deriving DecidableEq, Repr

/-- Collection of `PcFile`s keyed by id (`struct PcFiles`); the Rust `HashMap`
is embedded as an association list whose order stands for the (unspecified)
map iteration order. -/
structure PcFiles where
  files : List (String × PcFile)
deriving DecidableEq, Repr

/-- First-match lookup in an association list (Rust `HashMap::get` /
`BTreeMap::get`; keys built by `map_insert` below are unique). -/
def assoc_get {κ α : Type} [DecidableEq κ] : List (κ × α) → κ → Option α
  | [], _ => none
  | (k', v) :: rest, k => if k' = k then some v else assoc_get rest k

/-- Insert-or-replace in an association list (Rust map `insert`: later inserts
for the same key silently replace earlier ones). -/
def map_insert {κ α : Type} [DecidableEq κ] : List (κ × α) → κ → α → List (κ × α)
  | [], k, v => [(k, v)]
  | (k', v') :: rest, k, v =>
    if k' = k then (k, v) :: rest else (k', v') :: map_insert rest k v

/-- Iteration core of `PcFiles::locate_pc_file_by_lib`: the first record (in
map iteration order) whose `libs` contains the file name. -/
def locate_by_lib : List (String × PcFile) → String → Option PcFile
  | [], _ => none
  | (_, pc) :: rest, lib => if lib ∈ pc.libs then some pc else locate_by_lib rest lib

/-- `PcFiles::locate_pc_file_by_lib`. -/
def PcFiles.locate_pc_file_by_lib (pcs : PcFiles) (lib : String) : Option PcFile :=
  locate_by_lib pcs.files lib

/-- `remove_item` from `src/lib.rs`: remove and return the first occurrence of
`item`; the second component is the remaining list. -/
def remove_item : List String → String → Option String × List String
  | [], _ => (none, [])
  | x :: xs, item =>
    if x = item then (some x, xs)
    else
      let r := remove_item xs item
      (r.1, x :: r.2)

/-- One pivot of `fix_ordering`'s inner loop: if `dep_lib` is present, remove
it and re-append it at the end (`remove_item` followed by `push`). -/
def pivot (acc : List String) (dep_lib : String) : List String :=
  match remove_item acc dep_lib with
  | (some removed, rest) => rest ++ [removed]
  | (none, _) => acc

/-- One pass of `PcFiles::fix_ordering`'s bounded loop: scan the input in
order, appending each library, and for each dependency record of the library's
declaring record pivot the already-seen dependency libraries to the end. -/
def fix_ordering_pass (pcs : PcFiles) (libs : List String) : List String :=
  libs.foldl
    (fun required_lib_order lib =>
      let acc := required_lib_order ++ [lib]
      match pcs.locate_pc_file_by_lib lib with
      | some pc_file =>
        pc_file.deps.foldl
          (fun acc2 dep =>
            match assoc_get pcs.files dep with
            | some dep_pc_file => dep_pc_file.libs.foldl pivot acc2
            | none => acc2)
          acc
      | none => acc)
    []

/-- The `for _iter in 0..3` loop of `PcFiles::fix_ordering`: stop early at a
fixed point, otherwise feed the new ordering into the next pass; when the
fuel runs out return the last computed ordering (the source then emits a
non-fatal warning). -/
def fix_ordering_loop (pcs : PcFiles) : Nat → List String → List String
  | 0, libs => libs
  | n + 1, libs =>
    let required_lib_order := fix_ordering_pass pcs libs
    if required_lib_order = libs then libs
    else fix_ordering_loop pcs n required_lib_order

/-- `PcFiles::fix_ordering` (bound of 3 passes, as in the source). -/
def PcFiles.fix_ordering (pcs : PcFiles) (libs : List String) : List String :=
  fix_ordering_loop pcs 3 libs

/-! ### A flattened view of one pass, used by the proofs -/

/-- All dependency library names pivoted when a library declared by `pc_file`
is processed: for each dependency id known to the mapping, that record's
declared library list, concatenated in iteration order. -/
def dep_moves (pcs : PcFiles) (pc_file : PcFile) : List String :=
  (pc_file.deps.map (fun dep =>
    match assoc_get pcs.files dep with
    | some dep_pc_file => dep_pc_file.libs
    | none => [])).flatten

/-- The list of library names pivoted when `lib` is processed by a pass. -/
def moves (pcs : PcFiles) (lib : String) : List String :=
  match pcs.locate_pc_file_by_lib lib with
  | some pc_file => dep_moves pcs pc_file
  | none => []

/-- One outer-loop step of a pass, in flattened form. -/
def pass_step (pcs : PcFiles) (acc : List String) (lib : String) : List String :=
  (moves pcs lib).foldl pivot (acc ++ [lib])

theorem foldl_dep_moves (pcs : PcFiles) (deps : List String) (base : List String) :
    deps.foldl
      (fun acc2 dep =>
        match assoc_get pcs.files dep with
        | some dep_pc_file => dep_pc_file.libs.foldl pivot acc2
        | none => acc2)
      base
    = ((deps.map (fun dep =>
        match assoc_get pcs.files dep with
        | some dep_pc_file => dep_pc_file.libs
        | none => [])).flatten).foldl pivot base := by
  induction deps generalizing base with
  | nil => rfl
  | cons d ds ih =>
    simp only [List.foldl_cons, List.map_cons, List.flatten_cons, List.foldl_append]
    cases h : assoc_get pcs.files d with
    | none => simpa using ih base
    | some dep_pc_file => simpa using ih (dep_pc_file.libs.foldl pivot base)

theorem fix_ordering_pass_eq_steps (pcs : PcFiles) (libs : List String) :
    fix_ordering_pass pcs libs = libs.foldl (pass_step pcs) [] := by
  have hstep : ∀ (acc : List String) (lib : String),
      (fun required_lib_order lib =>
        let acc := required_lib_order ++ [lib]
        match pcs.locate_pc_file_by_lib lib with
        | some pc_file =>
          pc_file.deps.foldl
            (fun acc2 dep =>
              match assoc_get pcs.files dep with
              | some dep_pc_file => dep_pc_file.libs.foldl pivot acc2
              | none => acc2)
            acc
        | none => acc) acc lib = pass_step pcs acc lib := by
    intro acc lib
    simp only [pass_step, moves]
    cases h : pcs.locate_pc_file_by_lib lib with
    | none => rfl
    | some pc_file => simpa [dep_moves] using foldl_dep_moves pcs pc_file.deps (acc ++ [lib])
  have : ∀ (l : List String) (acc : List String),
      l.foldl
        (fun required_lib_order lib =>
          let acc := required_lib_order ++ [lib]
          match pcs.locate_pc_file_by_lib lib with
          | some pc_file =>
            pc_file.deps.foldl
              (fun acc2 dep =>
                match assoc_get pcs.files dep with
                | some dep_pc_file => dep_pc_file.libs.foldl pivot acc2
                | none => acc2)
              acc
          | none => acc) acc
      = l.foldl (pass_step pcs) acc := by
    intro l
    induction l with
    | nil => intro acc; rfl
    | cons x xs ih => intro acc; simp only [List.foldl_cons, hstep, ih]
  exact this libs []

/-! ### Permutation facts (claim C2 and supporting material) -/

theorem remove_item_eq (l : List String) (item : String) :
    remove_item l item = (if item ∈ l then some item else none, l.erase item) := by
  induction l with
  | nil => simp [remove_item]
  | cons x xs ih =>
    by_cases hx : x = item
    · subst hx
      simp [remove_item, List.erase_cons]
    · have hx' : (x == item) = false := by
        simp [hx]
      have hix : ¬item = x := fun h => hx h.symm
      simp [remove_item, hx, ih, List.erase_cons, hx', List.mem_cons, hix]

theorem pivot_eq (acc : List String) (x : String) :
    pivot acc x = if x ∈ acc then acc.erase x ++ [x] else acc := by
  by_cases h : x ∈ acc
  · simp [pivot, remove_item_eq, h]
  · simp [pivot, remove_item_eq, h]

theorem pivot_perm (acc : List String) (x : String) :
    List.Perm (pivot acc x) acc := by
  rw [pivot_eq]
  by_cases h : x ∈ acc
  · simp only [h, if_true]
    exact (List.perm_append_singleton x (acc.erase x)).trans (List.perm_cons_erase h).symm
  · simp [h]

theorem foldl_pivot_perm (ms : List String) (acc : List String) :
    List.Perm (ms.foldl pivot acc) acc := by
  induction ms generalizing acc with
  | nil => exact List.Perm.refl acc
  | cons m ms ih =>
    exact (ih (pivot acc m)).trans (pivot_perm acc m)

theorem foldl_pass_step_perm (pcs : PcFiles) (l : List String) (acc : List String) :
    List.Perm (l.foldl (pass_step pcs) acc) (acc ++ l) := by
  induction l generalizing acc with
  | nil => simp
  | cons x xs ih =>
    have h1 : List.Perm (xs.foldl (pass_step pcs) (pass_step pcs acc x))
        (pass_step pcs acc x ++ xs) := ih _
    have h2 : List.Perm (pass_step pcs acc x ++ xs) ((acc ++ [x]) ++ xs) :=
      (foldl_pivot_perm (moves pcs x) (acc ++ [x])).append_right xs
    have h3 : (acc ++ [x]) ++ xs = acc ++ (x :: xs) := by simp
    simpa [List.foldl_cons, h3] using h1.trans h2

theorem fix_ordering_pass_perm (pcs : PcFiles) (libs : List String) :
    List.Perm (fix_ordering_pass pcs libs) libs := by
  rw [fix_ordering_pass_eq_steps]
  simpa using foldl_pass_step_perm pcs libs []

theorem fix_ordering_loop_perm (pcs : PcFiles) (n : Nat) (libs : List String) :
    List.Perm (fix_ordering_loop pcs n libs) libs := by
  induction n generalizing libs with
  | zero => exact List.Perm.refl libs
  | succ n ih =>
    simp only [fix_ordering_loop]
    by_cases h : fix_ordering_pass pcs libs = libs
    · simp [h]
    · simp only [h, if_false]
      exact (ih (fix_ordering_pass pcs libs)).trans (fix_ordering_pass_perm pcs libs)

theorem fix_ordering_perm (pcs : PcFiles) (libs : List String) :
    List.Perm (pcs.fix_ordering libs) libs :=
  fix_ordering_loop_perm pcs 3 libs

/-- C2: For every input library list and every metadata mapping, the list
returned by the Link-Order Refiner (`fix_ordering`) contains exactly the same
multiset of entries as the input list — no entry is added, dropped, or
duplicated, regardless of whether the fixed point is reached within the
3-pass bound. -/
theorem fix_ordering_preserves_multiset (pcs : PcFiles) (libs : List String) :
    (↑(pcs.fix_ordering libs) : Multiset String) = (↑libs : Multiset String) :=
  Multiset.coe_eq_coe.mpr (fix_ordering_perm pcs libs)

/-! ### Fixed points of the refinement (claim C3) -/

theorem fix_ordering_of_pass_fixed (pcs : PcFiles) (l : List String)
    (h : fix_ordering_pass pcs l = l) : pcs.fix_ordering l = l := by
  simp [PcFiles.fix_ordering, fix_ordering_loop, h]

/-- C3 (amended): if the Link-Order Refiner's bounded iteration reaches a fixed
point within the 3-pass bound — equivalently, one further refinement pass
leaves the returned list unchanged — then applying `fix_ordering` a second
time to its own output yields that same output unchanged.  (Without that
proviso the claim fails: see the cyclic-metadata counterexample.) -/
theorem fix_ordering_idempotent_of_fixed (pcs : PcFiles) (libs : List String)
    (h : fix_ordering_pass pcs (pcs.fix_ordering libs) = pcs.fix_ordering libs) :
    pcs.fix_ordering (pcs.fix_ordering libs) = pcs.fix_ordering libs :=
  fix_ordering_of_pass_fixed pcs (pcs.fix_ordering libs) h

/-- Concrete metadata mapping with a dependency cycle between two records:
record a declares A.a and requires b; record b declares B.a and requires a. -/
def pcs_cycle : PcFiles :=
  ⟨[("a", ⟨"a", ["A.a"], ["b"]⟩), ("b", ⟨"b", ["B.a"], ["a"]⟩)]⟩

/-- C3 (counterexample): with cyclic metadata the 3-pass bound is exhausted
without reaching a fixed point and the returned ordering is not stable —
running `fix_ordering` on its own output changes the list again. -/
theorem fix_ordering_not_idempotent :
    pcs_cycle.fix_ordering (pcs_cycle.fix_ordering ["A.a", "B.a"])
      ≠ pcs_cycle.fix_ordering ["A.a", "B.a"] := by
  decide

/-- Witness for the amended C3 theorem at a concrete fixed-point input. -/
theorem fix_ordering_idempotent_witness :
    fix_ordering_pass pcs_cycle (pcs_cycle.fix_ordering ["A.a"]) = pcs_cycle.fix_ordering ["A.a"]
    ∧ pcs_cycle.fix_ordering (pcs_cycle.fix_ordering ["A.a"]) = pcs_cycle.fix_ordering ["A.a"] :=
  ⟨by decide, fix_ordering_idempotent_of_fixed pcs_cycle ["A.a"] (by decide)⟩

/-! ### Relative order at a fixed point of the pass (claim C1)

`List.Sublist [a, b] l` states that `a` occurs strictly before `b` in `l`.
The lemmas below track how a pass preserves and creates this relation. -/

theorem sublist_erase_of_not_mem {α : Type} [DecidableEq α] {s l : List α} {a : α}
    (h : List.Sublist s l) (ha : a ∉ s) : List.Sublist s (l.erase a) := by
  induction h with
  | slnil => simp
  | cons y h ih =>
    rename_i s' l'
    rw [List.erase_cons]
    by_cases hy : y = a
    · simpa [hy] using h
    · have : (y == a) = false := by simp [hy]
      simpa [this] using (ih ha).cons y
  | cons₂ y h ih =>
    rename_i s' l'
    have hya : ¬y = a := fun he => ha (by simp [he])
    have has : a ∉ s' := fun hm => ha (by simp [hm])
    have : (y == a) = false := by simp [hya]
    rw [List.erase_cons, this]
    simpa using (ih has).cons₂ y

theorem mem_pivot {acc : List String} {y : String} (x : String) (h : y ∈ acc) :
    y ∈ pivot acc x := by
  rw [pivot_eq]
  by_cases hx : x ∈ acc
  · simp only [hx, if_true, List.mem_append, List.mem_singleton]
    by_cases hyx : y = x
    · exact Or.inr hyx
    · exact Or.inl ((List.mem_erase_of_ne hyx).mpr h)
  · simpa [hx] using h

theorem before_pivot {acc : List String} {a b : String} (x : String)
    (hab : a ≠ b) (hxa : x ≠ a) (h : List.Sublist [a, b] acc) :
    List.Sublist [a, b] (pivot acc x) := by
  rw [pivot_eq]
  by_cases hx : x ∈ acc
  · simp only [hx, if_true]
    by_cases hxb : x = b
    · subst hxb
      have haacc : a ∈ acc := h.subset (by simp)
      have haerase : a ∈ acc.erase x := (List.mem_erase_of_ne hab).mpr haacc
      have h1 : List.Sublist [a] (acc.erase x) := List.singleton_sublist.mpr haerase
      exact h1.append (List.Sublist.refl [x])
    · have hnot : x ∉ ([a, b] : List String) := by
        simp [fun he : x = a => hxa he, fun he : x = b => hxb he]
      exact (sublist_erase_of_not_mem h hnot).trans (List.sublist_append_left _ _)
  · simpa [hx] using h

theorem before_pivot_self {acc : List String} {a b : String}
    (hab : a ≠ b) (ha : a ∈ acc) (hb : b ∈ acc) :
    List.Sublist [a, b] (pivot acc b) := by
  rw [pivot_eq]
  simp only [hb, if_true]
  have haerase : a ∈ acc.erase b := (List.mem_erase_of_ne hab).mpr ha
  exact (List.singleton_sublist.mpr haerase).append (List.Sublist.refl [b])

theorem before_foldl_pivot {a b : String} (ms : List String) :
    ∀ acc : List String, a ∉ ms → a ≠ b → List.Sublist [a, b] acc →
      List.Sublist [a, b] (ms.foldl pivot acc) := by
  induction ms with
  | nil => intro acc _ _ h; exact h
  | cons m ms ih =>
    intro acc hma hab h
    have hm : a ∉ ms := fun hin => hma (by simp [hin])
    have hmne : m ≠ a := fun he => hma (by simp [he])
    exact ih (pivot acc m) hm hab (before_pivot m hab hmne h)

theorem before_foldl_pivot_of_mem {a b : String} (ms : List String) :
    ∀ acc : List String, a ∉ ms → b ∈ ms → a ≠ b → a ∈ acc → b ∈ acc →
      List.Sublist [a, b] (ms.foldl pivot acc) := by
  induction ms with
  | nil => intro acc _ hb; simp at hb
  | cons m ms ih =>
    intro acc hma hbm hab ha hb
    have hm : a ∉ ms := fun hin => hma (by simp [hin])
    by_cases hmb : m = b
    · subst hmb
      exact before_foldl_pivot ms (pivot acc m) hm hab (before_pivot_self hab ha hb)
    · have hbm' : b ∈ ms := by
        rcases List.mem_cons.mp hbm with he | hin
        · exact absurd he.symm hmb
        · exact hin
      exact ih (pivot acc m) hm hbm' hab (mem_pivot m ha) (mem_pivot m hb)

theorem before_foldl_pass_step (pcs : PcFiles) {a b : String} (l : List String) :
    ∀ acc : List String, a ≠ b → (∀ y ∈ l, a ∉ moves pcs y) →
      List.Sublist [a, b] acc → List.Sublist [a, b] (l.foldl (pass_step pcs) acc) := by
  induction l with
  | nil => intro acc _ _ h; exact h
  | cons y l ih =>
    intro acc hab hno h
    have h1 : List.Sublist [a, b] (acc ++ [y]) := h.trans (List.sublist_append_left _ _)
    have h2 : List.Sublist [a, b] (pass_step pcs acc y) :=
      before_foldl_pivot (moves pcs y) (acc ++ [y]) (hno y (by simp)) hab h1
    exact ih (pass_step pcs acc y) hab (fun z hz => hno z (by simp [hz])) h2

theorem append_cons_inj {α : Type} {a : α} :
    ∀ (l1 l3 : List α) {l2 l4 : List α},
      l1 ++ a :: l2 = l3 ++ a :: l4 → a ∉ l1 → a ∉ l3 → l1 = l3 ∧ l2 = l4 := by
  intro l1
  induction l1 with
  | nil =>
    intro l3 l2 l4 h h1 h3
    cases l3 with
    | nil => simpa using h
    | cons y l3' =>
      have : a = y := by simpa using congrArg (fun l => l.head?) h
      exact absurd (by simp [this]) h3
  | cons x l1' ih =>
    intro l3 l2 l4 h h1 h3
    cases l3 with
    | nil =>
      have : x = a := by simpa using congrArg (fun l => l.head?) h
      exact absurd (by simp [this]) h1
    | cons y l3' =>
      have hxy : x = y := by simpa using congrArg (fun l => l.head?) h
      have htl : l1' ++ a :: l2 = l3' ++ a :: l4 := by
        simpa using congrArg (fun l => l.tail) h
      have h1' : a ∉ l1' := fun hm => h1 (by simp [hm])
      have h3' : a ∉ l3' := fun hm => h3 (by simp [hm])
      obtain ⟨he, ht⟩ := ih l3' htl h1' h3'
      exact ⟨by simp [hxy, he], ht⟩

theorem sublist_pair_decomp {a b : String} :
    ∀ {L : List String}, List.Sublist [a, b] L →
      ∃ l1 l2 l3, L = l1 ++ (a :: (l2 ++ b :: l3)) := by
  intro L
  induction L with
  | nil => intro h; simp at h
  | cons x L' ih =>
    intro h
    cases h with
    | cons _ h' =>
      obtain ⟨l1, l2, l3, hdec⟩ := ih h'
      exact ⟨x :: l1, l2, l3, by simp [hdec]⟩
    | cons₂ _ h' =>
      have hb : b ∈ L' := List.singleton_sublist.mp h'
      obtain ⟨s, t, hst⟩ := List.append_of_mem hb
      exact ⟨[], s, t, by simp [hst]⟩

theorem fix_pass_after_core (pcs : PcFiles) (L1 L2 : List String) (A : String)
    (hfix : fix_ordering_pass pcs (L1 ++ A :: L2) = L1 ++ A :: L2)
    (hnd : (L1 ++ A :: L2).Nodup)
    (hselfA : A ∉ moves pcs A)
    (hlater : ∀ y ∈ L2, A ∉ moves pcs y)
    (B : String) (hBmv : B ∈ moves pcs A) (hBmem : B ∈ L1 ++ A :: L2) (hBA : B ≠ A) :
    B ∈ L2 := by
  rcases List.mem_append.mp hBmem with hBL1 | hBtl
  · -- B occurs among the entries processed before A; the pass pivots it behind A,
    -- and the fixed point forces that order in the list itself.
    have hperm0 : List.Perm (L1.foldl (pass_step pcs) []) L1 := by
      simpa using foldl_pass_step_perm pcs L1 []
    set acc0 := L1.foldl (pass_step pcs) [] with hacc0
    have hBacc : B ∈ acc0 := hperm0.mem_iff.mpr hBL1
    have hAB : A ≠ B := hBA.symm
    have hstep : List.Sublist [A, B] (pass_step pcs acc0 A) :=
      before_foldl_pivot_of_mem (moves pcs A) (acc0 ++ [A]) hselfA hBmv hAB
        (by simp) (by simp [hBacc])
    have hrest : List.Sublist [A, B] (L2.foldl (pass_step pcs) (pass_step pcs acc0 A)) :=
      before_foldl_pass_step pcs L2 (pass_step pcs acc0 A) hAB hlater hstep
    have hpass : fix_ordering_pass pcs (L1 ++ A :: L2)
        = L2.foldl (pass_step pcs) (pass_step pcs acc0 A) := by
      rw [fix_ordering_pass_eq_steps, List.foldl_append, List.foldl_cons]
    have hbefore : List.Sublist [A, B] (L1 ++ A :: L2) := by
      rw [← hfix, hpass]; exact hrest
    obtain ⟨l1, l2, l3, hdec⟩ := sublist_pair_decomp hbefore
    have hAnotL1 : A ∉ L1 := by
      rcases List.nodup_append.mp hnd with ⟨_, _, hdisj⟩
      exact fun hm => hdisj hm (by simp)
    have hAnotl1 : A ∉ l1 := by
      have hnd' : (l1 ++ (A :: (l2 ++ B :: l3))).Nodup := hdec ▸ hnd
      rcases List.nodup_append.mp hnd' with ⟨_, _, hdisj⟩
      exact fun hm => hdisj hm (by simp)
    obtain ⟨_, htl⟩ := append_cons_inj L1 l1 hdec hAnotL1 hAnotl1
    rw [htl]
    simp
  · rcases List.mem_cons.mp hBtl with he | hin
    · exact absurd he hBA
    · exact hin

theorem fix_pass_after_aux (pcs : PcFiles) :
    ∀ (n : Nat) (L2 L1 : List String) (A : String),
      L2.length ≤ n →
      fix_ordering_pass pcs (L1 ++ A :: L2) = L1 ++ A :: L2 →
      (L1 ++ A :: L2).Nodup →
      (∀ x ∈ L1 ++ A :: L2, x ∉ moves pcs x) →
      ∀ B, B ∈ moves pcs A → B ∈ L1 ++ A :: L2 → B ≠ A → B ∈ L2 := by
  intro n
  induction n with
  | zero =>
    intro L2 L1 A hlen hfix hnd hself B hBmv hBmem hBA
    have hL2 : L2 = [] := List.length_eq_zero.mp (Nat.le_zero.mp hlen)
    subst hL2
    exact fix_pass_after_core pcs L1 [] A hfix hnd (hself A (by simp)) (by simp)
      B hBmv hBmem hBA
  | succ n ih =>
    intro L2 L1 A hlen hfix hnd hself B hBmv hBmem hBA
    have hAnotL2 : A ∉ L2 := by
      have : (A :: L2).Nodup := (List.nodup_append.mp hnd).2.1
      exact (List.nodup_cons.mp this).1
    refine fix_pass_after_core pcs L1 L2 A hfix hnd (hself A (by simp)) ?_ B hBmv hBmem hBA
    intro y hy hAmv
    obtain ⟨l2a, l2b, hdec⟩ := List.append_of_mem hy
    have hre : L1 ++ A :: L2 = (L1 ++ A :: l2a) ++ y :: l2b := by
      rw [hdec]; simp
    have hlen' : l2b.length ≤ n := by
      have hL2len : L2.length = l2a.length + (l2b.length + 1) := by
        rw [hdec]; simp
      omega
    have hAy : A ≠ y := fun he => hAnotL2 (he ▸ hy)
    have hmem : A ∈ (L1 ++ A :: l2a) ++ y :: l2b := by
      rw [← hre]; simp
    have hAl2b : A ∈ l2b :=
      ih l2b (L1 ++ A :: l2a) y hlen' (hre ▸ hfix) (hre ▸ hnd)
        (fun x hx => hself x (by rw [hre]; exact hx)) A hAmv hmem hAy
    exact hAnotL2 (by rw [hdec]; simp [hAl2b])

/-- C1 (amended): restricted to the dependency edges the Refiner actually
consults — `A`'s declaring record is the first record in mapping iteration
order whose library list contains `A` (`locate_pc_file_by_lib`), and the edge
set is `moves` — and to duplicate-free inputs in which no library is pivoted
by its own processing step (no direct self-requirement), reaching a fixed
point within the 3-pass bound guarantees that `B` is placed strictly after
`A` in the returned list whenever `A`'s consulted record requires `B` and
both appear in the input. -/
theorem fix_ordering_orders_consulted_deps (pcs : PcFiles) (libs : List String)
    (hfix : fix_ordering_pass pcs (pcs.fix_ordering libs) = pcs.fix_ordering libs)
    (hnd : libs.Nodup)
    (hself : ∀ x ∈ libs, x ∉ moves pcs x)
    (A B : String) (hA : A ∈ libs) (hB : B ∈ libs)
    (hreq : B ∈ moves pcs A) (hBA : B ≠ A) :
    List.Sublist [A, B] (pcs.fix_ordering libs) := by
  have hperm := fix_ordering_perm pcs libs
  have hnd' : (pcs.fix_ordering libs).Nodup := hperm.nodup_iff.mpr hnd
  have hself' : ∀ x ∈ pcs.fix_ordering libs, x ∉ moves pcs x :=
    fun x hx => hself x (hperm.mem_iff.mp hx)
  have hA' : A ∈ pcs.fix_ordering libs := hperm.mem_iff.mpr hA
  have hB' : B ∈ pcs.fix_ordering libs := hperm.mem_iff.mpr hB
  obtain ⟨L1, L2, hdec⟩ := List.append_of_mem hA'
  have hBin : B ∈ L2 :=
    fix_pass_after_aux pcs L2.length L2 L1 A le_rfl (hdec ▸ hfix) (hdec ▸ hnd')
      (hdec ▸ hself') B hreq (hdec ▸ hB') hBA
  rw [hdec]
  have h1 : List.Sublist [A, B] (A :: L2) := (List.singleton_sublist.mpr hBin).cons₂ A
  exact h1.trans (List.sublist_append_right L1 (A :: L2))

/-- Library names declared by the record keyed `d`, or nothing when no record
carries that identifier. -/
def spec_record_libs (pcs : PcFiles) (d : String) : List String :=
  match assoc_get pcs.files d with
  | some dpc => dpc.libs
  | none => []

/-- Modelled from the claim text (C1, as stated): some metadata record
declaring `a` lists a dependency identifier whose metadata record declares
`b`.  This quantifies over all declaring records, not just the one the
Refiner consults. -/
def spec_declared_edge (pcs : PcFiles) (a b : String) : Prop :=
  ∃ pr ∈ pcs.files, a ∈ pr.2.libs ∧ ∃ d ∈ pr.2.deps, b ∈ spec_record_libs pcs d

/-- Metadata mapping where the record consulted for A.a (first in iteration
order) has no dependencies, while a second record also declaring A.a requires
the record that declares B.a. -/
def pcs_shadow : PcFiles :=
  ⟨[("r0", ⟨"r0", ["A.a"], []⟩), ("r1", ⟨"r1", ["A.a"], ["d"]⟩), ("d", ⟨"d", ["B.a"], []⟩)]⟩

/-- C1 (counterexample to the claim as stated): a record declaring A.a lists a
dependency whose record declares B.a, both A.a and B.a are in the input, a
fixed point is reached immediately, and yet the returned list does not place
B.a after A.a — the Refiner only consults the first declaring record in
mapping iteration order. -/
theorem fix_ordering_spec_edge_counterexample :
    spec_declared_edge pcs_shadow "A.a" "B.a"
    ∧ "A.a" ∈ (["B.a", "A.a"] : List String)
    ∧ "B.a" ∈ (["B.a", "A.a"] : List String)
    ∧ fix_ordering_pass pcs_shadow (pcs_shadow.fix_ordering ["B.a", "A.a"])
        = pcs_shadow.fix_ordering ["B.a", "A.a"]
    ∧ ¬ List.Sublist ["A.a", "B.a"] (pcs_shadow.fix_ordering ["B.a", "A.a"]) := by
  refine ⟨?_, by decide, by decide, by decide, by decide⟩
  unfold spec_declared_edge
  decide

/-- Metadata chain used as witness input: record a declares A.a and requires
record b, which declares B.a. -/
def pcs_chain_w : PcFiles :=
  ⟨[("b", ⟨"b", ["B.a"], []⟩), ("a", ⟨"a", ["A.a"], ["b"]⟩)]⟩

/-- Witness for the amended C1 theorem at a concrete input that reaches its
fixed point within the bound. -/
theorem fix_ordering_orders_consulted_deps_witness :
    fix_ordering_pass pcs_chain_w (pcs_chain_w.fix_ordering ["B.a", "A.a"])
        = pcs_chain_w.fix_ordering ["B.a", "A.a"]
    ∧ List.Sublist ["A.a", "B.a"] (pcs_chain_w.fix_ordering ["B.a", "A.a"]) :=
  ⟨by decide,
    fix_ordering_orders_consulted_deps pcs_chain_w ["B.a", "A.a"] (by decide) (by decide)
      (by decide) "A.a" "B.a" (by decide) (by decide) (by decide) (by decide)⟩

/-! ## Ports and the port-graph scan loop (`src/port.rs`, `src/config.rs`) -/

/-- `struct Port`: libraries and declared port dependencies of one installed
package. -/
structure Port where
  dlls : List String
  libs : List String
  deps : List String
deriving DecidableEq, Repr

/-- Total number of declared dependencies across a status database; used only
to size the fuel of the scan loop below. -/
def total_deps (ports : List (String × Port)) : Nat :=
  ports.foldl (fun n p => n + p.2.deps.length) 0

/-- The `while !ports_to_scan.is_empty()` loop of `Config::find_package`
(`src/config.rs` lines 120-137).  The scan stack is a list whose head is the
top (Rust `Vec::pop` takes the last pushed element; pushing the dependency
list in order therefore makes the last dependency the next popped).  A popped
name already resolved is skipped; a name found in the database pushes its
dependencies, is marked resolved, and is removed from and re-appended to the
end of the order list; an unknown name is silently dropped.  The loop always
terminates because each non-skip step resolves a fresh known name; the fuel
`ports.length + total_deps ports + 2` exceeds the number of pops
(1 + the number of pushed dependencies) plus one, so the zero-fuel clause is
never reached on any input. -/
def scan_loop (ports : List (String × Port)) :
    Nat → List String → List String → List String → List String
  | 0, _, _, required_port_order => required_port_order
  | _ + 1, [], _, required_port_order => required_port_order
  | fuel + 1, port_name :: rest, required_names, required_port_order =>
    if port_name ∈ required_names then
      scan_loop ports fuel rest required_names required_port_order
    else
      match assoc_get ports port_name with
      | some port =>
        scan_loop ports fuel
          (port.deps.foldl (fun s d => d :: s) rest)
          (port_name :: required_names)
          ((remove_item required_port_order port_name).2 ++ [port_name])
      | none => scan_loop ports fuel rest required_names required_port_order

/-- The port order (`required_port_order`, later `Library::ports`) computed by
`Config::find_package` for a root port. -/
def find_package_port_order (ports : List (String × Port)) (port_name : String) : List String :=
  scan_loop ports (ports.length + total_deps ports + 2) [port_name] [] []

theorem scan_loop_empty_scan (ports : List (String × Port)) (req ord : List String) :
    ∀ fuel, scan_loop ports fuel [] req ord = ord := by
  intro fuel
  cases fuel <;> rfl

theorem assoc_get_ne_nil {κ α : Type} [DecidableEq κ] {m : List (κ × α)} {k : κ} {v : α}
    (h : assoc_get m k = some v) : m ≠ [] := by
  intro he
  subst he
  simp [assoc_get] at h

theorem scan_loop_chain (ports : List (String × Port)) (root X Y : String)
    (proot pX pY : Port)
    (hroot : assoc_get ports root = some proot) (hdr : proot.deps = [X])
    (hX : assoc_get ports X = some pX) (hdX : pX.deps = [Y])
    (hY : assoc_get ports Y = some pY) (hdY : pY.deps = [])
    (hXr : X ≠ root) (hYr : Y ≠ root) (hYX : Y ≠ X) :
    ∀ k, scan_loop ports (k + 3) [root] [] [] = [root, X, Y] := by
  intro k
  have h1 : scan_loop ports (k + 3) [root] [] []
      = scan_loop ports (k + 2) [X] [root] [root] := by
    simp [scan_loop, hroot, hdr, remove_item]
  have h2 : scan_loop ports (k + 2) [X] [root] [root]
      = scan_loop ports (k + 1) [Y] [X, root] [root, X] := by
    simp [scan_loop, hX, hdX, hXr, remove_item, Ne.symm hXr]
  have h3 : scan_loop ports (k + 1) [Y] [X, root] [root, X]
      = scan_loop ports k [] [Y, X, root] [root, X, Y] := by
    simp [scan_loop, hY, hdY, hYr, hYX, remove_item, Ne.symm hYr, Ne.symm hYX]
  rw [h1, h2, h3, scan_loop_empty_scan]

/-- C4 (amended): for every status database in which the root port has the
dependency chain root→X→Y (root depends on X, X depends on Y, no other
edges), the scan loop's output port order is `[root, X, Y]` — the root comes
first and each dependency is placed after the port that requires it, matching
the source's own `link_dependencies_after_port` test. -/
theorem find_package_port_order_chain (ports : List (String × Port)) (root X Y : String)
    (proot pX pY : Port)
    (hroot : assoc_get ports root = some proot) (hdr : proot.deps = [X])
    (hX : assoc_get ports X = some pX) (hdX : pX.deps = [Y])
    (hY : assoc_get ports Y = some pY) (hdY : pY.deps = [])
    (hXr : X ≠ root) (hYr : Y ≠ root) (hYX : Y ≠ X) :
    find_package_port_order ports root = [root, X, Y] := by
  have hlen : 1 ≤ ports.length := by
    cases hp : ports with
    | nil => exact absurd hp (assoc_get_ne_nil hroot)
    | cons p ps => simp
  have hfuel : ∃ m, ports.length + total_deps ports + 2 = m + 3 := by
    refine ⟨ports.length + total_deps ports - 1, ?_⟩
    omega
  obtain ⟨m, hm⟩ := hfuel
  rw [find_package_port_order, hm]
  exact scan_loop_chain ports root X Y proot pX pY hroot hdr hX hdX hY hdY hXr hYr hYX m

/-- Concrete status database with exactly the chain root→X→Y. -/
def chain_ports : List (String × Port) :=
  [("root", ⟨[], [], ["X"]⟩), ("X", ⟨[], [], ["Y"]⟩), ("Y", ⟨[], [], []⟩)]

/-- C4 (counterexample to the claim as stated): for the chain root→X→Y the
resolver returns `[root, X, Y]`; Y is not before X and X is not before root —
the claim inverts the direction that the code and its own test pin down. -/
theorem find_package_port_order_chain_counterexample :
    find_package_port_order chain_ports "root" = ["root", "X", "Y"]
    ∧ ¬ List.Sublist ["Y", "X"] (find_package_port_order chain_ports "root")
    ∧ ¬ List.Sublist ["X", "root"] (find_package_port_order chain_ports "root") := by
  decide

/-- Witness for the amended C4 theorem at the concrete chain database. -/
theorem find_package_port_order_chain_witness :
    find_package_port_order chain_ports "root" = ["root", "X", "Y"] :=
  find_package_port_order_chain chain_ports "root" "X" "Y" ⟨[], [], ["X"]⟩ ⟨[], [], ["Y"]⟩
    ⟨[], [], []⟩ (by decide) rfl (by decide) rfl (by decide) rfl (by decide) (by decide)
    (by decide)

/-! ## String primitives

The Rust string operations used by the parsing code (`splitn`, `split`,
`split_whitespace`, `trim`, `ends_with`, `starts_with`, `contains`,
`trim_left_matches`) are embedded as structural recursions over the character
list of a string, so that every definition evaluates inside the kernel. -/

/-- Does the character list start with the pattern (`str::starts_with`)? -/
def chars_starts_with : List Char → List Char → Bool
  | _, [] => true
  | [], _ :: _ => false
  | c :: cs, p :: ps => c = p && chars_starts_with cs ps

/-- Does the character list contain the pattern (`str::contains`)? -/
def chars_contains : List Char → List Char → Bool
  | [], pat => pat.isEmpty
  | c :: cs, pat => chars_starts_with (c :: cs) pat || chars_contains cs pat

/-- `str::starts_with` on strings. -/
def str_starts_with (s pat : String) : Bool :=
  chars_starts_with s.data pat.data

/-- `str::contains` on strings. -/
def str_contains (s pat : String) : Bool :=
  chars_contains s.data pat.data

/-- `str::ends_with` on strings: the reversed string starts with the reversed
pattern. -/
def str_ends_with (s pat : String) : Bool :=
  chars_starts_with s.data.reverse pat.data.reverse

/-- Drop leading whitespace (`str::trim_start`). -/
def chars_trim_left : List Char → List Char
  | [] => []
  | c :: cs => if c.isWhitespace then chars_trim_left cs else c :: cs

/-- `str::trim`: strip whitespace from both ends. -/
def str_trim (s : String) : String :=
  ⟨(chars_trim_left (chars_trim_left s.data).reverse).reverse⟩

/-- `splitn(2, ": ")`, successful exactly when `": "` occurs: the text before
the first occurrence and everything after it. -/
def split2_colon_space : List Char → Option (List Char × List Char)
  | [] => none
  | ':' :: ' ' :: rest => some ([], rest)
  | c :: rest =>
    match split2_colon_space rest with
    | some (pre, post) => some (c :: pre, post)
    | none => none

/-- `split_once(':')`: the text before the first colon and everything after
it. -/
def split_once_colon : List Char → Option (List Char × List Char)
  | [] => none
  | ':' :: rest => some ([], rest)
  | c :: rest =>
    match split_once_colon rest with
    | some (pre, post) => some (c :: pre, post)
    | none => none

/-- `split(", ")`: cut at every (leftmost, non-overlapping) occurrence of the
two-character separator, keeping empty pieces. -/
def split_comma_space : List Char → List (List Char)
  | [] => [[]]
  | ',' :: ' ' :: rest => [] :: split_comma_space rest
  | c :: rest =>
    match split_comma_space rest with
    | [] => [[c]]
    | g :: gs => (c :: g) :: gs

/-- `split(p)` for a character predicate: cut at every matching character,
keeping empty pieces (Rust `split_whitespace` is this with a whitespace
predicate followed by discarding empty pieces). -/
def split_pred (p : Char → Bool) : List Char → List (List Char)
  | [] => [[]]
  | c :: rest =>
    if p c then [] :: split_pred p rest
    else
      match split_pred p rest with
      | [] => [[c]]
      | g :: gs => (c :: g) :: gs

/-- `deps.split(", ")` from `load_ports`, as strings. -/
def split_deps (d : String) : List String :=
  (split_comma_space d.data).map (fun cs => String.mk cs)

/-! ## Status-database loading (`src/lib.rs`: `load_port_file`, `load_ports`)

One status paragraph is a `BTreeMap<String, String>`, embedded as an
association list built by `map_insert` (insert-or-replace, so lookups see the
latest value per key).  File contents are passed in as lists of lines, and the
updates directory as a list of (filename, lines) pairs. -/

/-- One parsed status paragraph. -/
abbrev Paragraph := List (String × String)

/-- One line of `load_port_file`'s loop: a `"key: value"` line (Rust
`splitn(2, ": ")` finds two parts exactly when `": "` occurs) inserts into the
current paragraph; an empty line pushes the current paragraph (even an empty
one) and clears it; any other line (an extension line) is ignored. -/
def load_port_file_step (st : List Paragraph × Paragraph) (line : String) :
    List Paragraph × Paragraph :=
  match split2_colon_space line.data with
  | some (k, v) =>
    (st.1, map_insert st.2 (str_trim (String.mk k)) (str_trim (String.mk v)))
  | none =>
    if line = "" then (st.1 ++ [st.2], []) else st

/-- `load_port_file`: parse one status file's lines, appending its paragraphs
to `port_info`; an unterminated trailing paragraph is still captured. -/
def load_port_file (lines : List String) (port_info : List Paragraph) : List Paragraph :=
  let st := lines.foldl load_port_file_step (port_info, [])
  if st.2 = [] then st.1 else st.1 ++ [st.2]

/-- Insertion step of the update-file sort (`paths.sort()` in `load_ports`);
filenames within one directory are distinct, and insertion keeps ascending
filename order. -/
def insert_update (x : String × List String) :
    List (String × List String) → List (String × List String)
  | [] => [x]
  | y :: ys => if x.1 ≤ y.1 then x :: y :: ys else y :: insert_update x ys

/-- Sort the update files by filename (lexicographic), as `paths.sort()`. -/
def sort_updates (ups : List (String × List String)) : List (String × List String) :=
  ups.foldr insert_update []

/-- Paragraph accumulation of `load_ports`: the primary status file first (its
absence is not an error), then every update file in sorted filename order,
appending to the same paragraph list. -/
def load_ports_paragraphs (status : Option (List String))
    (updates : List (String × List String)) : List Paragraph :=
  let port_info := match status with
    | some lines => load_port_file lines []
    | none => []
  (sort_updates updates).foldl (fun acc u => load_port_file u.2 acc) port_info

/-- Key of the `seen_names` map: (package name, architecture, feature). -/
abbrev StatusKey := String × String × Option String

/-- The key under which a paragraph is stored, when it names a package and an
architecture. -/
def para_key (p : Paragraph) : Option StatusKey :=
  match assoc_get p "Package", assoc_get p "Architecture" with
  | some pkg, some arch => some (pkg, arch, assoc_get p "Feature")
  | _, _ => none

/-- The `seen_names` map of `load_ports`: paragraphs are stored by key in
order, later paragraphs clobbering older details. -/
def seen_names (port_info : List Paragraph) : List (StatusKey × Paragraph) :=
  port_info.foldl
    (fun seen current =>
      match para_key current with
      | some k => map_insert seen k current
      | none => seen)
    []

theorem assoc_get_map_insert {κ α : Type} [DecidableEq κ] (m : List (κ × α)) (k k' : κ) (v : α) :
    assoc_get (map_insert m k v) k' = if k = k' then some v else assoc_get m k' := by
  induction m with
  | nil => by_cases h : k = k' <;> simp [map_insert, assoc_get, h]
  | cons p rest ih =>
    obtain ⟨pk, pv⟩ := p
    by_cases hpk : pk = k
    · subst hpk
      by_cases h : pk = k' <;> simp [map_insert, assoc_get, h]
    · by_cases h : pk = k'
      · subst h
        have : ¬k = pk := fun he => hpk he.symm
        simp [map_insert, assoc_get, hpk, this]
      · simp [map_insert, assoc_get, hpk, h, ih]

theorem seen_names_lookup (info : List Paragraph) (k : StatusKey) :
    assoc_get (seen_names info) k
      = (info.filter (fun p => para_key p = some k)).getLast? := by
  induction info using List.reverseRecOn with
  | nil => simp [seen_names, assoc_get]
  | append_singleton l p ih =>
    have hstep : seen_names (l ++ [p])
        = match para_key p with
          | some kp => map_insert (seen_names l) kp p
          | none => seen_names l := by
      simp [seen_names, List.foldl_append]
    rw [hstep, List.filter_append]
    cases hk : para_key p with
    | none =>
      have : (List.filter (fun p => decide (para_key p = some k)) [p]) = [] := by
        simp [List.filter, hk]
      simp [this, ih]
    | some kp =>
      by_cases hkk : kp = k
      · subst hkk
        have : (List.filter (fun p => decide (para_key p = some kp)) [p]) = [p] := by
          simp [List.filter, hk]
        simp [this, assoc_get_map_insert, ih]
      · have : (List.filter (fun p => decide (para_key p = some k)) [p]) = [] := by
          simp [List.filter, hk, hkk]
        simp [this, assoc_get_map_insert, hkk, ih]

theorem load_port_file_foldl_acc (lines : List String) :
    ∀ (acc : List Paragraph) (cur : Paragraph),
      lines.foldl load_port_file_step (acc, cur)
        = (acc ++ (lines.foldl load_port_file_step ([], cur)).1,
           (lines.foldl load_port_file_step ([], cur)).2) := by
  induction lines with
  | nil => intro acc cur; simp
  | cons line rest ih =>
    intro acc cur
    simp only [List.foldl_cons]
    cases hsp : split2_colon_space line.data with
    | none =>
      by_cases hl : line = ""
      · rw [show load_port_file_step (acc, cur) line = (acc ++ [cur], []) from by
            simp only [load_port_file_step, hsp]; simp [hl],
          show load_port_file_step ([], cur) line = ([cur], []) from by
            simp only [load_port_file_step, hsp]; simp [hl]]
        rw [ih (acc ++ [cur]) [], ih [cur] []]
        simp
      · rw [show load_port_file_step (acc, cur) line = (acc, cur) from by
            simp only [load_port_file_step, hsp]; simp [hl],
          show load_port_file_step ([], cur) line = ([], cur) from by
            simp only [load_port_file_step, hsp]; simp [hl]]
        exact ih acc cur
    | some kv =>
      rw [show load_port_file_step (acc, cur) line
            = (acc, map_insert cur (str_trim (String.mk kv.1)) (str_trim (String.mk kv.2)))
          from by simp [load_port_file_step, hsp],
        show load_port_file_step ([], cur) line
            = ([], map_insert cur (str_trim (String.mk kv.1)) (str_trim (String.mk kv.2)))
          from by simp [load_port_file_step, hsp]]
      exact ih acc _

theorem load_port_file_append (lines : List String) (acc : List Paragraph) :
    load_port_file lines acc = acc ++ load_port_file lines [] := by
  simp only [load_port_file]
  rw [load_port_file_foldl_acc lines acc []]
  by_cases h : (lines.foldl load_port_file_step ([], [])).2 = []
  · simp [h]
  · simp [h]

theorem load_port_files_foldl (files : List (String × List String)) :
    ∀ init : List Paragraph,
      files.foldl (fun acc u => load_port_file u.2 acc) init
        = init ++ (files.map (fun u => load_port_file u.2 [])).flatten := by
  induction files with
  | nil => intro init; simp
  | cons f fs ih =>
    intro init
    simp only [List.foldl_cons, List.map_cons, List.flatten_cons]
    rw [ih (load_port_file f.2 init), load_port_file_append f.2 init]
    simp

theorem insert_update_perm (x : String × List String) (l : List (String × List String)) :
    List.Perm (insert_update x l) (x :: l) := by
  induction l with
  | nil => simp [insert_update]
  | cons y ys ih =>
    by_cases h : x.1 ≤ y.1
    · simp [insert_update, h]
    · simp only [insert_update, h, if_false]
      exact ((ih.cons y).trans (List.Perm.swap x y ys))

theorem sort_updates_perm (ups : List (String × List String)) :
    List.Perm (sort_updates ups) ups := by
  induction ups with
  | nil => simp [sort_updates]
  | cons u us ih =>
    simp only [sort_updates, List.foldr_cons]
    exact (insert_update_perm u _).trans (ih.cons u)

theorem insert_update_sorted (x : String × List String) (l : List (String × List String))
    (h : l.Pairwise (fun a b => a.1 ≤ b.1)) :
    (insert_update x l).Pairwise (fun a b => a.1 ≤ b.1) := by
  induction l with
  | nil => simp [insert_update]
  | cons y ys ih =>
    rcases List.pairwise_cons.mp h with ⟨hy, hys⟩
    by_cases hle : x.1 ≤ y.1
    · simp only [insert_update, hle, if_true]
      refine List.pairwise_cons.mpr ⟨?_, h⟩
      intro z hz
      rcases List.mem_cons.mp hz with he | hin
      · exact he ▸ hle
      · exact le_trans hle (hy z hin)
    · have hyx : y.1 ≤ x.1 := le_of_not_le hle
      simp only [insert_update, hle, if_false]
      refine List.pairwise_cons.mpr ⟨?_, ih hys⟩
      intro z hz
      rcases List.mem_cons.mp ((insert_update_perm x ys).mem_iff.mp hz) with he | hin
      · exact he ▸ hyx
      · exact hy z hin

theorem sort_updates_sorted (ups : List (String × List String)) :
    (sort_updates ups).Pairwise (fun a b => a.1 ≤ b.1) := by
  induction ups with
  | nil => simp [sort_updates]
  | cons u us ih => exact insert_update_sorted u _ ih

/-- C5: the update files are brought into ascending (lexicographic) filename
order — `sort_updates` is a sorted permutation of the directory listing — and
for every key (package name, architecture, feature-or-absent) the constructed
`seen_names` mapping holds exactly the last paragraph with that key in
processing order: primary status file first, then the update files in sorted
order, later paragraphs silently replacing earlier ones. -/
theorem load_ports_last_paragraph_wins (status : List String)
    (updates : List (String × List String)) (k : StatusKey) :
    (sort_updates updates).Pairwise (fun a b => a.1 ≤ b.1)
    ∧ List.Perm (sort_updates updates) updates
    ∧ assoc_get (seen_names (load_ports_paragraphs (some status) updates)) k
      = ((load_port_file status []
            ++ ((sort_updates updates).map (fun u => load_port_file u.2 [])).flatten).filter
          (fun p => para_key p = some k)).getLast? := by
  refine ⟨sort_updates_sorted updates, sort_updates_perm updates, ?_⟩
  rw [seen_names_lookup]
  have : load_ports_paragraphs (some status) updates
      = load_port_file status []
        ++ ((sort_updates updates).map (fun u => load_port_file u.2 [])).flatten := by
    simp only [load_ports_paragraphs]
    exact load_port_files_foldl (sort_updates updates) (load_port_file status [])
  rw [this]

/-! ## Port construction from the status paragraphs (`load_ports`, second loop)

The second loop of `load_ports` iterates the `seen_names` `BTreeMap` in
ascending key order — (name, architecture, feature), with an absent feature
ordering before any present one — which is why a base paragraph is processed
before the feature paragraphs of the same package.  Reading a port's manifest
(`load_port_manifest`, a filesystem step) is abstracted as an oracle from
(port name, version) to the (dlls, libs) pair, `none` meaning the manifest
could not be opened (a fatal installation error in the source). -/

/-- Error taxonomy (`src/error.rs`). -/
inductive Error where
  | DisabledByEnv (v : String)
  | RequiredEnvMissing (v : String)
  | NotMSVC
  | VcpkgNotFound (m : String)
  | LibNotFound (m : String)
  | VcpkgInstallation (m : String)
deriving DecidableEq, Repr

instance {ε α : Type} [DecidableEq ε] [DecidableEq α] : DecidableEq (Except ε α) := fun x y =>
  match x, y with
  | Except.ok a, Except.ok b =>
    if h : a = b then isTrue (by rw [h]) else isFalse (fun he => by cases he; exact h rfl)
  | Except.error e, Except.error f =>
    if h : e = f then isTrue (by rw [h]) else isFalse (fun he => by cases he; exact h rfl)
  | Except.ok _, Except.error _ => isFalse (fun he => by cases he)
  | Except.error _, Except.ok _ => isFalse (fun he => by cases he)

/-- Lexicographic character-list comparison (code-point order), mirroring the
ordering Rust uses for string keys. -/
def chars_lt : List Char → List Char → Bool
  | [], [] => false
  | [], _ :: _ => true
  | _ :: _, [] => false
  | a :: as, b :: bs =>
    if a.toNat < b.toNat then true
    else if b.toNat < a.toNat then false
    else chars_lt as bs

/-- Strict lexicographic order on strings. -/
def str_lt (a b : String) : Bool :=
  chars_lt a.data b.data

/-- Rust `Option<&str>` ordering: `None` before any `Some`. -/
def opt_le : Option String → Option String → Bool
  | none, _ => true
  | some _, none => false
  | some a, some b => !str_lt b a

/-- Lexicographic `BTreeMap` key order on (name, architecture, feature). -/
def key_le (k1 k2 : StatusKey) : Bool :=
  str_lt k1.1 k2.1 ||
    (decide (k1.1 = k2.1) &&
      (str_lt k1.2.1 k2.2.1 ||
        (decide (k1.2.1 = k2.2.1) && opt_le k1.2.2 k2.2.2)))

/-- Insertion step bringing `seen_names` entries into `BTreeMap` iteration
order (ascending key). -/
def insert_seen (x : StatusKey × Paragraph) :
    List (StatusKey × Paragraph) → List (StatusKey × Paragraph)
  | [] => [x]
  | y :: ys => if key_le x.1 y.1 then x :: y :: ys else y :: insert_seen x ys

/-- `seen_names` entries in `BTreeMap` iteration order. -/
def sort_seen (l : List (StatusKey × Paragraph)) : List (StatusKey × Paragraph) :=
  l.foldr insert_seen []

/-- One iteration of `load_ports`' port-construction loop (`src/lib.rs` lines
448-496): skip foreign architectures; parse `Depends`; require a status ending
in " installed"; a paragraph with a `Version` loads the manifest and inserts a
fresh `Port` (overwriting any entry of that name); a paragraph without a
`Version` but with a feature appends its dependencies to the already-built
`Port`, or is logged and skipped when none exists; anything else is logged
and skipped. -/
def build_ports_step (triplet : String)
    (manifest : String → String → Option (List String × List String))
    (ports : List (String × Port)) (entry : StatusKey × Paragraph) :
    Except Error (List (String × Port)) :=
  let name := entry.1.1
  let feature := entry.1.2.2
  let current := entry.2
  if entry.1.2.1 = triplet then
    let deps := match assoc_get current "Depends" with
      | some d => split_deps d
      | none => []
    if str_ends_with ((assoc_get current "Status").getD "") " installed" then
      match assoc_get current "Version", feature with
      | some version, _ =>
        match manifest name version with
        | some lib_info => Except.ok (map_insert ports name ⟨lib_info.1, lib_info.2, deps⟩)
        | none => Except.error (Error.VcpkgInstallation
            ("Could not open port manifest file " ++ name ++ "_" ++ version))
      | none, some _feat =>
        match assoc_get ports name with
        | some port =>
          Except.ok (map_insert ports name ⟨port.dlls, port.libs, port.deps ++ deps⟩)
        | none => Except.ok ports
      | none, none => Except.ok ports
    else Except.ok ports
  else Except.ok ports

/-- The port mapping built by `load_ports` from the keyed paragraphs,
iterated in `BTreeMap` key order. -/
def build_ports (triplet : String)
    (manifest : String → String → Option (List String × List String))
    (seen : List (StatusKey × Paragraph)) : Except Error (List (String × Port)) :=
  (sort_seen seen).foldlM (build_ports_step triplet manifest) []

theorem foldlM_except_cons_ok {α β : Type} (f : β → α → Except Error β) {b b' : β} {x : α}
    (xs : List α) (h : f b x = Except.ok b') :
    List.foldlM f b (x :: xs) = List.foldlM f b' xs := by
  rw [List.foldlM_cons, h]
  rfl

/-- Base status paragraph for package foo with a version and a Depends
field. -/
def base_para (v d1 : String) : Paragraph :=
  [("Package", "foo"), ("Architecture", "x64-linux"), ("Version", v),
   ("Depends", d1), ("Status", "install ok installed")]

/-- Feature status paragraph for package foo (no Version field). -/
def feature_para (d2 : String) : Paragraph :=
  [("Package", "foo"), ("Architecture", "x64-linux"), ("Feature", "extra"),
   ("Depends", d2), ("Status", "install ok installed")]

/-- C6 (amended): an installed paragraph carrying a feature field and no
Version field appends its declared dependencies to the already-constructed
Port of the same name rather than creating a new Port; and when no base Port
for that name exists, the record is skipped and loading still returns
successfully with a mapping that omits any contribution from the orphan
record.  (A feature paragraph that does carry a Version field instead
rebuilds the Port from its manifest — see the counterexample.) -/
theorem build_ports_feature_appends (v d1 d2 : String) (dl ls : List String)
    (manifest : String → String → Option (List String × List String))
    (hm : manifest "foo" v = some (dl, ls)) :
    build_ports "x64-linux" manifest
        [(("foo", "x64-linux", none), base_para v d1),
         (("foo", "x64-linux", some "extra"), feature_para d2)]
      = Except.ok [("foo", ⟨dl, ls, split_deps d1 ++ split_deps d2⟩)]
    ∧ build_ports "x64-linux" manifest
        [(("foo", "x64-linux", some "extra"), feature_para d2)]
      = Except.ok [] := by
  constructor
  · have s1 : build_ports_step "x64-linux" manifest []
        (("foo", "x64-linux", none), base_para v d1)
        = Except.ok [("foo", ⟨dl, ls, split_deps d1⟩)] := by
      have hred : build_ports_step "x64-linux" manifest []
          (("foo", "x64-linux", none), base_para v d1)
          = match manifest "foo" v with
            | some lib_info =>
              Except.ok [("foo", ⟨lib_info.1, lib_info.2, split_deps d1⟩)]
            | none => Except.error (Error.VcpkgInstallation
                ("Could not open port manifest file " ++ "foo" ++ "_" ++ v)) := rfl
      rw [hred, hm]
    have s2 : build_ports_step "x64-linux" manifest [("foo", ⟨dl, ls, split_deps d1⟩)]
        (("foo", "x64-linux", some "extra"), feature_para d2)
        = Except.ok [("foo", ⟨dl, ls, split_deps d1 ++ split_deps d2⟩)] := rfl
    have hsort : sort_seen
        [(("foo", "x64-linux", none), base_para v d1),
         (("foo", "x64-linux", some "extra"), feature_para d2)]
        = [(("foo", "x64-linux", none), base_para v d1),
           (("foo", "x64-linux", some "extra"), feature_para d2)] := rfl
    rw [build_ports, hsort, foldlM_except_cons_ok _ _ s1, foldlM_except_cons_ok _ _ s2]
    rfl
  · have s3 : build_ports_step "x64-linux" manifest []
        (("foo", "x64-linux", some "extra"), feature_para d2) = Except.ok [] := rfl
    rw [build_ports, show sort_seen [(("foo", "x64-linux", some "extra"), feature_para d2)]
        = [(("foo", "x64-linux", some "extra"), feature_para d2)] from rfl,
      foldlM_except_cons_ok _ _ s3]
    rfl

/-- Witness for the amended C6 theorem with concrete dependencies and
manifest. -/
theorem build_ports_feature_appends_witness :
    (fun n ver => if n = "foo" && ver = "1" then some (["foo.dll"], ["foo.lib"]) else none)
        "foo" "1" = some (["foo.dll"], ["foo.lib"])
    ∧ build_ports "x64-linux"
        (fun n ver => if n = "foo" && ver = "1" then some (["foo.dll"], ["foo.lib"]) else none)
        [(("foo", "x64-linux", none), base_para "1" "basedep"),
         (("foo", "x64-linux", some "extra"), feature_para "featdep")]
      = Except.ok [("foo", ⟨["foo.dll"], ["foo.lib"],
          split_deps "basedep" ++ split_deps "featdep"⟩)] :=
  ⟨by decide,
    (build_ports_feature_appends "1" "basedep" "featdep" ["foo.dll"] ["foo.lib"]
      (fun n ver => if n = "foo" && ver = "1" then some (["foo.dll"], ["foo.lib"]) else none)
      (by decide)).1⟩

/-- Feature paragraph for foo that carries a Version field as well. -/
def feature_para_versioned : Paragraph :=
  [("Package", "foo"), ("Architecture", "x64-linux"), ("Feature", "extra"),
   ("Version", "1"), ("Depends", "featdep"), ("Status", "install ok installed")]

/-- Concrete manifest oracle for the counterexample. -/
def manifest_foo : String → String → Option (List String × List String) :=
  fun n ver => if n = "foo" && ver = "1" then some (["foo.dll"], ["foo.lib"]) else none

/-- C6 (counterexample to the claim as stated): an installed paragraph
carrying a feature field AND a Version field does not append to the base Port;
it rebuilds the Port from its manifest, and the resulting entry for foo keeps
only the feature paragraph's dependencies — the base paragraph's dependency
basedep is dropped instead of being appended to. -/
theorem build_ports_feature_version_counterexample :
    build_ports "x64-linux" manifest_foo
        [(("foo", "x64-linux", none), base_para "1" "basedep"),
         (("foo", "x64-linux", some "extra"), feature_para_versioned)]
      = Except.ok [("foo", ⟨["foo.dll"], ["foo.lib"], ["featdep"]⟩)]
    ∧ assoc_get [("foo", (⟨["foo.dll"], ["foo.lib"], ["featdep"]⟩ : Port))] "foo"
      ≠ some ⟨["foo.dll"], ["foo.lib"], ["basedep", "featdep"]⟩ := by
  constructor
  · decide
  · decide

/-! ## Target triplets (`src/target_triplet.rs`, `msvc_target` in `src/lib.rs`) -/

/-- `struct TargetTriplet`.  The source declares the first field as
`vcpkg_triplet` in `target_triplet.rs` while every use site in `lib.rs` and
`config.rs` calls it `triplet`; the use-site name is kept.  The last field is
`strip_lib_prefix` in the source. -/
structure TargetTriplet where
  triplet : String
  is_static : Bool
  lib_suffix : String
  strip_lib_pfx : Bool
deriving DecidableEq, Repr

/-- `impl From<S> for TargetTriplet`: derive the descriptor from the triplet
string by substring tests, with no allow-list. -/
def TargetTriplet.from_str (triplet : String) : TargetTriplet :=
  if str_contains triplet "windows" then
    ⟨triplet, str_contains triplet "-static", "lib", false⟩
  else
    ⟨triplet, true, "a", true⟩

/-! ## Metadata-file parsing (`PcFile::from_str` in `src/pc_file/pc_file.rs`) -/

/-- `dep.contains(|c| c == '=' || c == '<' || c == '>')`. -/
def has_version_char (dep : String) : Bool :=
  dep.data.any (fun c => c = '=' || c = '<' || c = '>')

/-- Tokenization of a `Requires:` remainder: split on whitespace, split every
piece on commas, and drop empty tokens. -/
def tokenize_requires (remainder : String) : List String :=
  (((split_pred (fun c => c.isWhitespace) remainder.data).map
      (split_pred (fun c => c = ','))).flatten.filter
    (fun t => !t.isEmpty)).map (fun t => String.mk t)

/-- The `while let Some(dep) = requires_args.next()` loop of
`PcFile::from_str`: a token containing a version-comparison character is
dropped and the iterator is advanced once more (the version value is
consumed); other tokens are recorded as dependency ids. -/
def requires_deps : List String → List String
  | [] => []
  | [dep] => if has_version_char dep then [] else [dep]
  | dep :: next :: rest =>
    if has_version_char dep then requires_deps rest
    else dep :: requires_deps (next :: rest)

/-- The `Requires` arm of `PcFile::from_str`. -/
def parse_requires (remainder : String) : List String :=
  requires_deps (tokenize_requires remainder)

/-- `lib_flag.trim_left_matches("-l")`: strip every leading repetition of
`-l`. -/
def trim_l_matches : List Char → List Char
  | '-' :: 'l' :: rest => trim_l_matches rest
  | l => l

/-- The `Libs` arm of `PcFile::from_str`: whitespace-separated tokens starting
with `-l` are turned back into on-disk file names (optional `lib` prefix, the
target's library suffix). -/
def parse_libs_line (tt : TargetTriplet) (remainder : String) : List String :=
  ((split_pred (fun c => c.isWhitespace) remainder.data).filter
      (fun t => !t.isEmpty)).filterMap
    (fun tok =>
      if chars_starts_with tok ['-', 'l'] then
        some ((if tt.strip_lib_pfx then "lib" else "")
          ++ String.mk (trim_l_matches tok) ++ "." ++ tt.lib_suffix)
      else none)

/-- `PcFile::from_str`: split the contents into lines, keep `Key: value`
lines (first-colon split), and interpret only the `Requires` and `Libs`
keywords. -/
def PcFile.from_str (id : String) (s : String) (tt : TargetTriplet) : PcFile :=
  let res := (split_pred (fun c => c = '\n') s.data).foldl
    (fun (acc : List String × List String) line =>
      match split_once_colon line with
      | some kv =>
        if String.mk kv.1 = "Requires" then
          (acc.1, acc.2 ++ parse_requires (String.mk kv.2))
        else if String.mk kv.1 = "Libs" then
          (acc.1 ++ parse_libs_line tt (String.mk kv.2), acc.2)
        else acc
      | none => acc)
    ([], [])
  ⟨id, res.1, res.2⟩

/-- Modelled from the claim text (C7): a token containing one of the
version-comparison characters '=', '<', '>' is not added as a dependency
identifier and the immediately following token is also skipped; all other
tokens are added in order. -/
def requires_spec_skip : List String → List String
  | [] => []
  | t :: rest =>
    if has_version_char t then requires_spec_skip (rest.drop 1)
    else t :: requires_spec_skip rest
termination_by l => l.length
decreasing_by
  · simp only [List.length_cons, List.length_drop]
    omega
  · simp

theorem requires_deps_eq_spec : ∀ toks : List String,
    requires_deps toks = requires_spec_skip toks
  | [] => by simp [requires_deps, requires_spec_skip]
  | [dep] => by
    by_cases h : has_version_char dep <;>
      simp [requires_deps, requires_spec_skip, h]
  | dep :: next :: rest => by
    by_cases h : has_version_char dep
    · simp [requires_deps, requires_spec_skip, h, requires_deps_eq_spec rest]
    · simp [requires_deps, requires_spec_skip, h, requires_deps_eq_spec (next :: rest)]

/-- C7: parsing a `Requires:` line tokenizes the remainder by whitespace and
commas, and the recorded dependency identifiers are exactly those prescribed
by the claim's skip rule: a token containing '=', '<' or '>' is not added and
the immediately following token is also skipped; all other non-empty tokens
are added in order. -/
theorem from_str_requires_skips_versions (remainder : String) :
    parse_requires remainder = requires_spec_skip (tokenize_requires remainder) :=
  requires_deps_eq_spec (tokenize_requires remainder)

/-- The non-Windows triplet used by the source's own parsing tests. -/
def linux_triplet : TargetTriplet := ⟨"x64-linux", true, "a", true⟩

theorem from_str_test_brotli :
    (PcFile.from_str "libbrotlienc" "Libs: -lbrotlienc-static\nRequires: libbrotlicommon"
        linux_triplet)
      = ⟨"libbrotlienc", ["libbrotlienc-static.a"], ["libbrotlicommon"]⟩ := by
  decide

theorem from_str_test_versioned_requires :
    (PcFile.from_str "test" "Libs: -ltest\nRequires: cairo xcb >= 1.6 xcb-render >= 1.6"
        linux_triplet).deps
      = ["cairo", "xcb", "xcb-render"]
    ∧ (PcFile.from_str "test" "Libs: -ltest\nRequires: glib-2.0, gobject-2.0"
        linux_triplet).deps
      = ["glib-2.0", "gobject-2.0"] := by
  constructor
  · decide
  · decide

/-! ## The probe entry point's check order (`Config::find_package`) -/

/-- The process environment, sampled as an association list;
`env_var` is `std::env::var(_os)`. -/
abbrev EnvList := List (String × String)

def env_var (env : EnvList) (k : String) : Option String :=
  assoc_get env k

/-- `envify`: uppercase and replace '-' with '_'. -/
def envify (name : String) : String :=
  String.mk (name.data.map (fun c => if c.toUpper = '-' then '_' else c.toUpper))

/-- `msvc_target` (`src/lib.rs` lines 515-625): the fixed table from the
compiler target string, the `VCPKGRS_DYNAMIC` opt-in and the `crt-static`
target feature; any windows target without the MSVC ABI is rejected. -/
def msvc_target (env : EnvList) : Except Error TargetTriplet :=
  let is_definitely_dynamic := (env_var env "VCPKGRS_DYNAMIC").isSome
  let target := (env_var env "TARGET").getD ""
  let is_static := str_contains ((env_var env "CARGO_CFG_TARGET_FEATURE").getD "")
    "crt-static"
  if target = "x86_64-apple-darwin" then
    Except.ok ⟨"x64-osx", true, "a", true⟩
  else if target = "aarch64-apple-darwin" then
    Except.ok ⟨"arm64-osx", true, "a", true⟩
  else if target = "x86_64-unknown-linux-gnu" then
    Except.ok ⟨"x64-linux", true, "a", true⟩
  else if target = "aarch64-apple-ios" then
    Except.ok ⟨"arm64-ios", true, "a", true⟩
  else if !str_contains target "-pc-windows-msvc" then
    Except.error Error.NotMSVC
  else if str_starts_with target "x86_64-" then
    if is_static then Except.ok ⟨"x64-windows-static", true, "lib", false⟩
    else if is_definitely_dynamic then Except.ok ⟨"x64-windows", false, "lib", false⟩
    else Except.ok ⟨"x64-windows-static-md", true, "lib", false⟩
  else if str_starts_with target "aarch64" then
    if is_static then Except.ok ⟨"arm64-windows-static", true, "lib", false⟩
    else if is_definitely_dynamic then Except.ok ⟨"arm64-windows", false, "lib", false⟩
    else Except.ok ⟨"arm64-windows-static-md", true, "lib", false⟩
  else
    if is_static then Except.ok ⟨"x86-windows-static", true, "lib", false⟩
    else if is_definitely_dynamic then Except.ok ⟨"x86-windows", false, "lib", false⟩
    else Except.ok ⟨"x86-windows-static-md", true, "lib", false⟩

/-- `Config::get_target_triplet`: an explicit `Config` target wins, then the
`VCPKGRS_TRIPLET` environment override (converted by substring tests, never
failing), and only otherwise the `msvc_target` allow-list. -/
def get_target_triplet (cfg_target : Option TargetTriplet) (env : EnvList) :
    Except Error TargetTriplet :=
  match cfg_target with
  | some t => Except.ok t
  | none =>
    match env_var env "VCPKGRS_TRIPLET" with
    | some triplet_str => Except.ok (TargetTriplet.from_str triplet_str)
    | none => msvc_target env

/-- The check sequence at the head of `Config::find_package` (`src/config.rs`
lines 68-97): resolve the target triplet FIRST (this is where an unsupported
compilation target fails), then the global and per-package disablement
switches, then hand over to the rest of the probe (install-tree discovery
onward), abstracted here as `rest`. -/
def find_package_model (cfg_target : Option TargetTriplet) (env : EnvList)
    (port_name : String) (rest : TargetTriplet → Except Error Unit) :
    Except Error Unit :=
  match get_target_triplet cfg_target env with
  | Except.error e => Except.error e
  | Except.ok msvc_tt =>
    if (env_var env "VCPKGRS_DISABLE").isSome then
      Except.error (Error.DisabledByEnv "VCPKGRS_DISABLE")
    else if (env_var env "NO_VCPKG").isSome then
      Except.error (Error.DisabledByEnv "NO_VCPKG")
    else if (env_var env ("VCPKGRS_NO_" ++ envify port_name)).isSome then
      Except.error (Error.DisabledByEnv ("VCPKGRS_NO_" ++ envify port_name))
    else if (env_var env (envify port_name ++ "_NO_VCPKG")).isSome then
      Except.error (Error.DisabledByEnv (envify port_name ++ "_NO_VCPKG"))
    else rest msvc_tt

/-- C8 (amended): the probe's fatal checks run with target-triplet resolution
(platform support) FIRST and the disablement switches second: any error from
triplet resolution is returned unchanged no matter which switches are set,
and the Disabled kind for `VCPKGRS_DISABLE` is returned (without consulting
the rest of the pipeline) only once the triplet resolves. -/
theorem find_package_checks_platform_before_disable (cfg_target : Option TargetTriplet)
    (env : EnvList) (port_name : String) (rest : TargetTriplet → Except Error Unit) :
    (∀ e, get_target_triplet cfg_target env = Except.error e →
      find_package_model cfg_target env port_name rest = Except.error e)
    ∧ (∀ tt, get_target_triplet cfg_target env = Except.ok tt →
        (env_var env "VCPKGRS_DISABLE").isSome = true →
        find_package_model cfg_target env port_name rest
          = Except.error (Error.DisabledByEnv "VCPKGRS_DISABLE")) := by
  constructor
  · intro e he
    simp [find_package_model, he]
  · intro tt ht hd
    simp [find_package_model, ht, hd]

/-- Environment with the global disablement switch set and a non-MSVC windows
compilation target. -/
def env_disabled_gnu : EnvList :=
  [("TARGET", "x86_64-pc-windows-gnu"), ("VCPKGRS_DISABLE", "1")]

/-- C8 (counterexample to the claim as stated): with a disablement switch set
AND an unsupported compilation target, the returned error is NotMSVC (the
UnsupportedPlatform kind), not Disabled — the triplet is resolved before the
disablement switches are consulted. -/
theorem find_package_disabled_unsupported_counterexample :
    find_package_model none env_disabled_gnu "foo" (fun _ => Except.ok ())
      = Except.error Error.NotMSVC
    ∧ Error.NotMSVC ≠ Error.DisabledByEnv "VCPKGRS_DISABLE" := by
  constructor
  · decide
  · decide

/-- Environment with the global disablement switch set and a supported MSVC
target. -/
def env_disabled_msvc : EnvList :=
  [("TARGET", "x86_64-pc-windows-msvc"), ("VCPKGRS_DISABLE", "1")]

/-- Witness for the amended C8 theorem at concrete environments. -/
theorem find_package_checks_witness :
    find_package_model none env_disabled_gnu "foo" (fun _ => Except.ok ())
      = Except.error Error.NotMSVC
    ∧ find_package_model none env_disabled_msvc "foo" (fun _ => Except.ok ())
      = Except.error (Error.DisabledByEnv "VCPKGRS_DISABLE") :=
  ⟨(find_package_checks_platform_before_disable none env_disabled_gnu "foo"
      (fun _ => Except.ok ())).1 Error.NotMSVC (by decide),
   (find_package_checks_platform_before_disable none env_disabled_msvc "foo"
      (fun _ => Except.ok ())).2 ⟨"x64-windows-static-md", true, "lib", false⟩
      (by decide) (by decide)⟩

/-! ## Library existence verification (`Config::emit_libs`) -/

/-- The filesystem layout of the resolved target, with paths as display
strings; joining appends a path separator. -/
structure VcpkgTargetPaths where
  lib_path : String
  bin_path : String
  target_triplet : TargetTriplet
deriving Repr

/-- The expected on-disk location of a required static/import library. -/
def lib_location (vt : VcpkgTargetPaths) (required_lib : String) : String :=
  vt.lib_path ++ "/" ++ required_lib ++ "." ++ vt.target_triplet.lib_suffix

/-- The expected on-disk location of a required DLL. -/
def dll_location (vt : VcpkgTargetPaths) (required_dll : String) : String :=
  vt.bin_path ++ "/" ++ required_dll ++ ".dll"

/-- The static/import-library loop of `Config::emit_libs`: each required
library must exist at its expected location; the first missing one aborts
with `LibNotFound` carrying that path's display string. -/
def emit_libs_libs (vt : VcpkgTargetPaths) (fs : String → Bool) :
    List String → Except Error (List String)
  | [] => Except.ok []
  | required_lib :: rest =>
    if fs (lib_location vt required_lib) then
      match emit_libs_libs vt fs rest with
      | Except.ok found => Except.ok (lib_location vt required_lib :: found)
      | Except.error e => Except.error e
    else Except.error (Error.LibNotFound (lib_location vt required_lib))

/-- The DLL loop of `Config::emit_libs`, reached only for non-static
targets. -/
def emit_libs_dlls (vt : VcpkgTargetPaths) (fs : String → Bool) :
    List String → Except Error (List String)
  | [] => Except.ok []
  | required_dll :: rest =>
    if fs (dll_location vt required_dll) then
      match emit_libs_dlls vt fs rest with
      | Except.ok found => Except.ok (dll_location vt required_dll :: found)
      | Except.error e => Except.error e
    else Except.error (Error.LibNotFound (dll_location vt required_dll))

/-- `Config::emit_libs`: verify every required library, and for a dynamic
target every required DLL, returning the verified paths. -/
def emit_libs (required_libs required_dlls : List String) (vt : VcpkgTargetPaths)
    (fs : String → Bool) : Except Error (List String × List String) :=
  match emit_libs_libs vt fs required_libs with
  | Except.error e => Except.error e
  | Except.ok found_libs =>
    if vt.target_triplet.is_static then Except.ok (found_libs, [])
    else
      match emit_libs_dlls vt fs required_dlls with
      | Except.error e => Except.error e
      | Except.ok found_dlls => Except.ok (found_libs, found_dlls)

theorem emit_libs_libs_missing (vt : VcpkgTargetPaths) (fs : String → Bool) :
    ∀ libs : List String, (∃ l ∈ libs, fs (lib_location vt l) = false) →
      ∃ p, emit_libs_libs vt fs libs = Except.error (Error.LibNotFound p)
        ∧ fs p = false ∧ ∃ l ∈ libs, p = lib_location vt l := by
  intro libs
  induction libs with
  | nil => intro h; simp at h
  | cons r rest ih =>
    intro h
    by_cases hr : fs (lib_location vt r) = false
    · exact ⟨lib_location vt r, by simp [emit_libs_libs, hr], hr, r, by simp⟩
    · have hr' : fs (lib_location vt r) = true := by
        cases hfr : fs (lib_location vt r)
        · exact absurd hfr hr
        · rfl
      have hrest : ∃ l ∈ rest, fs (lib_location vt l) = false := by
        obtain ⟨l, hl, hfl⟩ := h
        rcases List.mem_cons.mp hl with he | hin
        · exact absurd (he ▸ hfl) hr
        · exact ⟨l, hin, hfl⟩
      obtain ⟨p, hp, hfp, l, hl, hpl⟩ := ih hrest
      exact ⟨p, by simp [emit_libs_libs, hr', hp], hfp, l, by simp [hl], hpl⟩

theorem emit_libs_dlls_missing (vt : VcpkgTargetPaths) (fs : String → Bool) :
    ∀ dlls : List String, (∃ d ∈ dlls, fs (dll_location vt d) = false) →
      ∃ p, emit_libs_dlls vt fs dlls = Except.error (Error.LibNotFound p)
        ∧ fs p = false ∧ ∃ d ∈ dlls, p = dll_location vt d := by
  intro dlls
  induction dlls with
  | nil => intro h; simp at h
  | cons r rest ih =>
    intro h
    by_cases hr : fs (dll_location vt r) = false
    · exact ⟨dll_location vt r, by simp [emit_libs_dlls, hr], hr, r, by simp⟩
    · have hr' : fs (dll_location vt r) = true := by
        cases hfr : fs (dll_location vt r)
        · exact absurd hfr hr
        · rfl
      have hrest : ∃ d ∈ rest, fs (dll_location vt d) = false := by
        obtain ⟨d, hd, hfd⟩ := h
        rcases List.mem_cons.mp hd with he | hin
        · exact absurd (he ▸ hfd) hr
        · exact ⟨d, hin, hfd⟩
      obtain ⟨p, hp, hfp, d, hd, hpd⟩ := ih hrest
      exact ⟨p, by simp [emit_libs_dlls, hr', hp], hfp, d, by simp [hd], hpd⟩

theorem emit_libs_libs_all_present (vt : VcpkgTargetPaths) (fs : String → Bool) :
    ∀ libs : List String, (∀ l ∈ libs, fs (lib_location vt l) = true) →
      ∃ found, emit_libs_libs vt fs libs = Except.ok found := by
  intro libs
  induction libs with
  | nil => intro _; exact ⟨[], rfl⟩
  | cons r rest ih =>
    intro h
    obtain ⟨found, hf⟩ := ih (fun l hl => h l (by simp [hl]))
    exact ⟨lib_location vt r :: found, by simp [emit_libs_libs, h r (by simp), hf]⟩

/-- C9: whenever some required static/import library — or, for a dynamic
target, some required DLL — does not exist on disk at its expected location,
`emit_libs` fails with `LibNotFound` whose payload is exactly the path string
of a missing required file, and no result value is returned. -/
theorem emit_libs_missing_fails (required_libs required_dlls : List String)
    (vt : VcpkgTargetPaths) (fs : String → Bool)
    (hmiss : (∃ l ∈ required_libs, fs (lib_location vt l) = false)
      ∨ (vt.target_triplet.is_static = false
          ∧ ∃ d ∈ required_dlls, fs (dll_location vt d) = false)) :
    ∃ p, emit_libs required_libs required_dlls vt fs
        = Except.error (Error.LibNotFound p)
      ∧ fs p = false
      ∧ ((∃ l ∈ required_libs, p = lib_location vt l)
        ∨ (∃ d ∈ required_dlls, p = dll_location vt d)) := by
  by_cases hl : ∃ l ∈ required_libs, fs (lib_location vt l) = false
  · obtain ⟨p, hp, hfp, l, hlm, hpl⟩ := emit_libs_libs_missing vt fs required_libs hl
    exact ⟨p, by simp [emit_libs, hp], hfp, Or.inl ⟨l, hlm, hpl⟩⟩
  · have hall : ∀ l ∈ required_libs, fs (lib_location vt l) = true := by
      intro l hm
      cases hfl : fs (lib_location vt l)
      · exact absurd ⟨l, hm, hfl⟩ hl
      · rfl
    rcases hmiss with hmiss | ⟨hstat, hd⟩
    · exact absurd hmiss hl
    · obtain ⟨found, hf⟩ := emit_libs_libs_all_present vt fs required_libs hall
      obtain ⟨p, hp, hfp, d, hdm, hpd⟩ := emit_libs_dlls_missing vt fs required_dlls hd
      exact ⟨p, by simp [emit_libs, hf, hstat, hp], hfp, Or.inr ⟨d, hdm, hpd⟩⟩

/-- Concrete dynamic-target layout for the C9 witness. -/
def vt_dynamic : VcpkgTargetPaths :=
  ⟨"/vc/installed/x64-windows/lib", "/vc/installed/x64-windows/bin",
   ⟨"x64-windows", false, "lib", false⟩⟩

/-- Witness for the C9 theorem: one required library, absent from an empty
filesystem. -/
theorem emit_libs_missing_fails_witness :
    ∃ p, emit_libs ["mysqlclient"] [] vt_dynamic (fun _ => false)
        = Except.error (Error.LibNotFound p)
      ∧ (fun _ => false) p = false
      ∧ ((∃ l ∈ ["mysqlclient"], p = lib_location vt_dynamic l)
        ∨ (∃ d ∈ ([] : List String), p = dll_location vt_dynamic d)) :=
  emit_libs_missing_fails ["mysqlclient"] [] vt_dynamic (fun _ => false)
    (Or.inl ⟨"mysqlclient", by simp, rfl⟩)

/-! ## The explicit-triplet conversion is unvalidated (claim C10) -/

/-- C10: an explicitly supplied triplet string is converted by substring tests
with no allow-list validation: a string containing "windows" yields
is_static exactly when it contains "-static", library suffix "lib", and no
"lib"-prefix stripping; any other string yields a static descriptor with
suffix "a" and prefix stripping — and a triplet supplied through
`VCPKGRS_TRIPLET` (or an explicit `Config` target) always resolves
successfully, never an unsupported-platform error. -/
theorem target_triplet_from_substring_tests :
    (∀ s : String,
      (str_contains s "windows" = true →
        TargetTriplet.from_str s = ⟨s, str_contains s "-static", "lib", false⟩)
      ∧ (str_contains s "windows" = false →
        TargetTriplet.from_str s = ⟨s, true, "a", true⟩))
    ∧ (∀ (env : EnvList) (ts : String), env_var env "VCPKGRS_TRIPLET" = some ts →
        get_target_triplet none env = Except.ok (TargetTriplet.from_str ts))
    ∧ (∀ (env : EnvList) (t : TargetTriplet),
        get_target_triplet (some t) env = Except.ok t) := by
  refine ⟨fun s => ⟨fun h => ?_, fun h => ?_⟩, fun env ts h => ?_, fun env t => rfl⟩
  · simp [TargetTriplet.from_str, h]
  · simp [TargetTriplet.from_str, h]
  · simp [get_target_triplet, h]

/-- Witness for the C10 theorem at concrete strings: an arbitrary made-up
windows triplet and an environment override. -/
theorem target_triplet_from_witness :
    TargetTriplet.from_str "myos-windows-static"
      = ⟨"myos-windows-static", str_contains "myos-windows-static" "-static", "lib", false⟩
    ∧ get_target_triplet none [("VCPKGRS_TRIPLET", "x64-osx")]
      = Except.ok (TargetTriplet.from_str "x64-osx") :=
  ⟨(target_triplet_from_substring_tests.1 "myos-windows-static").1 (by decide),
   target_triplet_from_substring_tests.2.1 [("VCPKGRS_TRIPLET", "x64-osx")] "x64-osx"
     (by decide)⟩

end Vcpkg
